import Mathlib

set_option maxHeartbeats 1000000

/-!
Shallow embedding of the recipe resolver of `streamlit_app.py`.

The Python function `get_best_recipe_path(product_code, variants_map, stock_set,
memo, path)` recursively explodes a product code into its raw-material set over
the historical variants map, chooses among the batches of a parent the one with
the best availability ratio (ties broken by larger exploded set), detects cycles
through the `path` set, and memoizes results in `memo`.

Python dictionaries are embedded as association lists with first-match lookup
and in-place overwrite (append on a fresh key), which is exactly the observable
behaviour of `dict` here since every dictionary built by the program has
distinct keys.  Python sets of strings become duplicate-free `List String`
(`setAdd` inserts only elements not already present, so `length` is the
cardinality `len` of the Python set); for the stock set and the path only
membership is ever consulted, so a plain `List String` stands for them.  Floats
become exact rationals.  Recursion is fuel-indexed; `vm.length + 1` units of
fuel are proved sufficient for every input, which is the termination statement.
-/

/-- A variants map entry: parent code paired with its list of
`(batchId, ingredient codes)` batches, as built at lines 159-168 of the source. -/
abbrev VariantsMap := List (String × List (String × List String))

/-- The tuple returned by `get_best_recipe_path`:
`(Set of Exploded Ingredients, BatchID Used, Availability Score, Missing Sources Dict)`. -/
structure RRes where
  exploded : List String
  batchId  : String
  ratio    : ℚ
  missing  : List (String × String)
deriving DecidableEq

/-- The memo dictionary mapping product codes to cached results. -/
abbrev Memo := List (String × RRes)

/-- Dictionary lookup (`d[k]` / `k in d`): first entry with the given key. -/
def getKV {α : Type} : List (String × α) → String → Option α
  | [], _ => none
  | (k₀, v) :: rest, k => if k₀ = k then some v else getKV rest k

/-- Dictionary assignment `d[k] = v`: overwrite in place if the key is present,
append at the end otherwise (Python `dict` update semantics). -/
def setKV {α : Type} : List (String × α) → String → α → List (String × α)
  | [], k, v => [(k, v)]
  | (k₀, v₀) :: rest, k, v =>
      if k₀ = k then (k, v) :: rest else (k₀, v₀) :: setKV rest k v

/-- Python `set.add`: insert the element only when it is not already present. -/
def setAdd (acc : List String) (x : String) : List String :=
  if x ∈ acc then acc else acc ++ [x]

/-- Python `set.update`: add every element of the second set to the first. -/
def setUnion : List String → List String → List String
  | acc, [] => acc
  | acc, x :: rest => setUnion (setAdd acc x) rest

/-- Result of the circular-reference branch (line 43):
`(set(), "Circular Ref", 0.0, {})`. -/
def circRes : RRes := ⟨[], "Circular Ref", 0, []⟩

/-- Result of the raw-material base case (lines 46-50): the code is not a key of
the variants map, so it explodes to itself; ratio is 1.0 when in stock else 0.0,
and the missing-sources dict is empty when in stock else `{code: "Direct"}`. -/
def rawRes (stock : List String) (code : String) : RRes :=
  if code ∈ stock then ⟨[code], "Raw Material", 1, []⟩
  else ⟨[code], "Raw Material", 0, [(code, "Direct")]⟩

/-- Fallback result when no batch produced a best result (lines 104-106). -/
def nvrRes (code : String) : RRes :=
  ⟨[code], "No Valid Recipe", 0, [(code, "Direct")]⟩

/-- The missing-sources merge loop (lines 73-79): each entry of the child dict is
written into the accumulator, rewriting the value `"Direct"` to the current
product code and keeping any other value unchanged. -/
def mergeMissing (code : String) : List (String × String) → List (String × String) → List (String × String)
  | acc, [] => acc
  | acc, (k, v) :: rest =>
      mergeMissing code (setKV acc k (if v = "Direct" then code else v)) rest

/-- The ingredient loop of one batch (lines 66-79): resolve each ingredient via
`rec`, union its exploded set into the accumulator and merge its missing-sources
dict, threading the memo through the recursive calls. -/
def expandIngs (rec : String → Memo → Option (RRes × Memo)) (code : String) :
    List String → List String → List (String × String) → Memo →
    Option (List String × List (String × String) × Memo)
  | [], ex, ms, memo => some (ex, ms, memo)
  | ing :: rest, ex, ms, memo =>
    match rec ing memo with
    | none => none
    | some (r, memo₂) =>
        expandIngs rec code rest (setUnion ex r.exploded) (mergeMissing code ms r.missing) memo₂

/-- The availability score of one batch (lines 82-86):
`len(available_rms) / total_count` guarded to `0.0` on an empty exploded set. -/
def ratioOf (stock : List String) (ex : List String) : ℚ :=
  if 0 < ex.length then ((ex.filter (fun rm => decide (rm ∈ stock))).length : ℚ) / (ex.length : ℚ)
  else 0

/-- The tie-breaker logic (lines 88-100) applied to one batch: the running best
is `(best_result, best_score, best_len)`; the batch becomes the new best when
its ratio beats `best_score`, or equals it and `total_count` beats `best_len`. -/
def chooseBatch (stock : List String) (best : Option RRes × ℚ × Int)
    (batchId : String) (ex : List String) (ms : List (String × String)) :
    Option RRes × ℚ × Int :=
  let ratio := ratioOf stock ex
  if ratio > best.2.1 ∨ (ratio = best.2.1 ∧ (ex.length : Int) > best.2.2) then
    (some ⟨ex, batchId, ratio, ms⟩, ratio, (ex.length : Int))
  else best

/-- The batch loop (lines 61-100): expand each batch with `expandIngs`, feed it
to the tie-breaker, and thread the memo. -/
def goBatches (rec : String → Memo → Option (RRes × Memo)) (code : String) (stock : List String) :
    List (String × List String) → (Option RRes × ℚ × Int) → Memo →
    Option ((Option RRes × ℚ × Int) × Memo)
  | [], best, memo => some (best, memo)
  | (batchId, ings) :: rest, best, memo =>
    match expandIngs rec code ings [] [] memo with
    | none => none
    | some (ex, ms, memo₂) =>
        goBatches rec code stock rest (chooseBatch stock best batchId ex ms) memo₂

/-- Fuel-indexed embedding of `get_best_recipe_path` (lines 27-109).  Each
recursive call spends one unit of fuel; `none` means the fuel ran out, which
`resolveF_isSome` proves never happens once `keysLeft vm path < fuel`.  The
branches, in the source's priority order: memo hit, circular reference, raw
material, and the recursive search ending at the fallback and the memo write. -/
def resolveF (vm : VariantsMap) (stock : List String) :
    Nat → String → Memo → List String → Option (RRes × Memo)
  | 0, _, _, _ => none
  | fuel + 1, code, memo, path =>
    match getKV memo code with
    | some r => some (r, memo)
    | none =>
      if code ∈ path then
        some (circRes, memo)
      else
        match getKV vm code with
        | none => some (rawRes stock code, memo)
        | some batches =>
          match goBatches (fun c m => resolveF vm stock fuel c m (code :: path))
              code stock batches (none, -1, -1) memo with
          | none => none
          | some (best, memo₂) =>
            let r := best.1.getD (nvrRes code)
            some (r, setKV memo₂ code r)

/-- The resolver: `resolveF` run with `vm.length + 1` fuel, which
`resolveF_isSome` proves sufficient for every input, so the default branch of
`getD` is unreachable. -/
def resolve (vm : VariantsMap) (stock : List String) (code : String)
    (memo : Memo) (path : List String) : RRes × Memo :=
  (resolveF vm stock (vm.length + 1) code memo path).getD (circRes, memo)

/-- Number of distinct variants-map keys not yet on the path: the quantity that
shrinks at each level of the recursion. -/
def keysLeft (vm : VariantsMap) (path : List String) : Nat :=
  ((vm.map Prod.fst).dedup.filter (fun k => decide (k ∉ path))).length

/-- The inner loop of the variants-map builder (lines 162-167): for one parent
code, group its history rows by batch id and keep a `(batchId, ingredients)`
pair only when its ingredient list is non-empty. -/
def buildVariantsFor (rows : List (String × String × String)) (p : String) :
    List (String × List String) :=
  let group := rows.filter (fun r => decide (r.2.2 = p))
  (((group.map (fun r => r.2.1)).dedup).map (fun b =>
      (b, (group.filter (fun r => decide (r.2.1 = b))).map (fun r => r.1)))).filter
    (fun bi => decide (0 < bi.2.length))

/-- The variants-map builder (lines 159-168): group the cleaned history rows
`(rmCode, batchId, parentCode)` by parent, then by batch id within each parent.
Grouping keys are taken in order of first appearance. -/
def buildVariantsMap (rows : List (String × String × String)) : VariantsMap :=
  ((rows.map (fun r => r.2.2)).dedup).map (fun p => (p, buildVariantsFor rows p))

/-! ### Concrete fixtures used to instantiate the claims -/

/-- Parent with two batches of equal availability but different exploded sizes. -/
def vmC1 : VariantsMap := [("P", [("B1", ["X"]), ("B2", ["X", "Y"])])]

/-- Chain Target uses Intermediate uses MissingRM. -/
def vmC2 : VariantsMap := [("T", [("bT", ["I"])]), ("I", [("bI", ["M"])])]

/-- The graph of end-to-end example 2 of the specification. -/
def vmC3 : VariantsMap := [("P1", [("B1", ["RM1", "RM2"])])]

/-- A single parent with a single one-ingredient batch. -/
def vmC5 : VariantsMap := [("A", [("b", ["B"])])]

/-- The two-node cycle: the batch of A uses B and the batch of B uses A. -/
def vmC6 : VariantsMap := [("A", [("bA", ["B"])]), ("B", [("bB", ["A"])])]

/-- A cycle plus an extra leaf: the batch of A uses B and X, the batch of B uses A. -/
def vmC7 : VariantsMap := [("A", [("bA", ["B", "X"])]), ("B", [("bB", ["A"])])]

/-- A parent recorded with an empty batch list, triggering the fallback. -/
def vmC8 : VariantsMap := [("P", [])]

/-- A parent with one fully-stocked batch. -/
def vmC8w : VariantsMap := [("Q", [("b1", ["R"])])]

/-- One cleaned history row `(rmCode, batchId, parentCode)`. -/
def rowsC10 : List (String × String × String) := [("RM1", "B1", "P1")]

/-! ### Dictionary lemmas -/

lemma getKV_setKV_self {α : Type} (m : List (String × α)) (k : String) (v : α) :
    getKV (setKV m k v) k = some v := by
  induction m with
  | nil => simp [setKV, getKV]
  | cons hd tl ih =>
    obtain ⟨k₀, v₀⟩ := hd
    by_cases h : k₀ = k
    · simp [setKV, getKV, h]
    · simp [setKV, getKV, h, ih]

lemma getKV_setKV_ne {α : Type} (m : List (String × α)) (k k' : String) (v : α)
    (h : k' ≠ k) : getKV (setKV m k v) k' = getKV m k' := by
  induction m with
  | nil =>
    simp only [setKV, getKV]
    rw [if_neg (fun hh => h hh.symm)]
  | cons hd tl ih =>
    obtain ⟨k₀, v₀⟩ := hd
    by_cases hk : k₀ = k
    · subst hk
      simp only [setKV, if_pos rfl, getKV]
      rw [if_neg (fun hh => h hh.symm), if_neg (fun hh => h hh.symm)]
    · simp only [setKV, if_neg hk, getKV]
      by_cases hk' : k₀ = k'
      · simp [hk']
      · simp [hk', ih]

/-! ### Missing-sources merge lemmas -/

lemma mergeMissing_getKV_notMem (code : String) (child : List (String × String)) :
    ∀ (acc : List (String × String)) (k : String), k ∉ child.map Prod.fst →
      getKV (mergeMissing code acc child) k = getKV acc k := by
  induction child with
  | nil => intro acc k _; rfl
  | cons hd tl ih =>
    obtain ⟨k₀, v₀⟩ := hd
    intro acc k hk
    simp only [List.map_cons, List.mem_cons] at hk
    push_neg at hk
    simp only [mergeMissing]
    rw [ih _ k hk.2, getKV_setKV_ne _ _ _ _ hk.1]

lemma mergeMissing_getKV_mem (code : String) (child : List (String × String)) :
    ∀ (acc : List (String × String)) (k v : String), (k, v) ∈ child →
      (child.map Prod.fst).Nodup →
      getKV (mergeMissing code acc child) k = some (if v = "Direct" then code else v) := by
  induction child with
  | nil => intro acc k v h _; cases h
  | cons hd tl ih =>
    obtain ⟨k₀, v₀⟩ := hd
    intro acc k v hmem hnd
    simp only [List.map_cons, List.nodup_cons] at hnd
    rcases List.mem_cons.mp hmem with heq | htl
    · obtain ⟨hk, hv⟩ := Prod.mk.injEq .. ▸ heq
      subst hk; subst hv
      simp only [mergeMissing]
      rw [mergeMissing_getKV_notMem code tl _ k hnd.1, getKV_setKV_self]
    · simp only [mergeMissing]
      exact ih _ k v htl hnd.2

/-! ### Ratio and tie-break lemmas -/

lemma ratioOf_nonneg (stock : List String) (ex : List String) : 0 ≤ ratioOf stock ex := by
  unfold ratioOf
  split
  · positivity
  · exact le_refl 0

lemma chooseBatch_better (stock : List String) (best : Option RRes × ℚ × Int)
    (batchId : String) (ex : List String) (ms : List (String × String))
    (h : ratioOf stock ex > best.2.1 ∨
         (ratioOf stock ex = best.2.1 ∧ (ex.length : Int) > best.2.2)) :
    chooseBatch stock best batchId ex ms =
      (some ⟨ex, batchId, ratioOf stock ex, ms⟩, ratioOf stock ex, (ex.length : Int)) := by
  simp only [chooseBatch, if_pos h]

lemma chooseBatch_not_better (stock : List String) (best : Option RRes × ℚ × Int)
    (batchId : String) (ex : List String) (ms : List (String × String))
    (h : ¬(ratioOf stock ex > best.2.1 ∨
           (ratioOf stock ex = best.2.1 ∧ (ex.length : Int) > best.2.2))) :
    chooseBatch stock best batchId ex ms = best := by
  simp only [chooseBatch, if_neg h]

lemma chooseBatch_some_of_neg (stock : List String) (best : Option RRes × ℚ × Int)
    (batchId : String) (ex : List String) (ms : List (String × String))
    (h : best.2.1 < 0) :
    chooseBatch stock best batchId ex ms =
      (some ⟨ex, batchId, ratioOf stock ex, ms⟩, ratioOf stock ex, (ex.length : Int)) :=
  chooseBatch_better stock best batchId ex ms
    (Or.inl (lt_of_lt_of_le h (ratioOf_nonneg stock ex)))

lemma chooseBatch_fst_isSome (stock : List String) (best : Option RRes × ℚ × Int)
    (batchId : String) (ex : List String) (ms : List (String × String))
    (h : best.1.isSome) : (chooseBatch stock best batchId ex ms).1.isSome := by
  simp only [chooseBatch]
  split
  · rfl
  · exact h

lemma chooseBatch_ratio_inv (stock : List String) (best : Option RRes × ℚ × Int)
    (batchId : String) (ex : List String) (ms : List (String × String))
    (h : ∀ r, best.1 = some r → r.ratio = ratioOf stock r.exploded) :
    ∀ r, (chooseBatch stock best batchId ex ms).1 = some r →
      r.ratio = ratioOf stock r.exploded := by
  simp only [chooseBatch]
  split
  · intro r hr
    simp only [Option.some.injEq] at hr
    subst hr
    rfl
  · exact h

/-! ### Fuel sufficiency -/

lemma expandIngs_isSome (rec : String → Memo → Option (RRes × Memo)) (code : String)
    (hrec : ∀ c m, (rec c m).isSome) :
    ∀ (ings ex : List String) (ms : List (String × String)) (memo : Memo),
      (expandIngs rec code ings ex ms memo).isSome := by
  intro ings
  induction ings with
  | nil => intro ex ms memo; rfl
  | cons ing rest ih =>
    intro ex ms memo
    simp only [expandIngs]
    obtain ⟨⟨r, memo₂⟩, hr⟩ := Option.isSome_iff_exists.mp (hrec ing memo)
    rw [hr]
    exact ih _ _ _

lemma goBatches_isSome (rec : String → Memo → Option (RRes × Memo))
    (code : String) (stock : List String)
    (hrec : ∀ c m, (rec c m).isSome) :
    ∀ (bs : List (String × List String)) (best : Option RRes × ℚ × Int) (memo : Memo),
      (goBatches rec code stock bs best memo).isSome := by
  intro bs
  induction bs with
  | nil => intro best memo; rfl
  | cons hd rest ih =>
    obtain ⟨batchId, ings⟩ := hd
    intro best memo
    simp only [goBatches]
    obtain ⟨⟨ex, ms, memo₂⟩, he⟩ :=
      Option.isSome_iff_exists.mp (expandIngs_isSome rec code hrec ings [] [] memo)
    rw [he]
    exact ih _ _

lemma length_filter_le_of_imp {α : Type} (p q : α → Bool) (l : List α)
    (h : ∀ a, p a = true → q a = true) :
    (l.filter p).length ≤ (l.filter q).length := by
  induction l with
  | nil => simp
  | cons hd tl ih =>
    by_cases hp : p hd = true
    · simp [List.filter_cons, hp, h hd hp]
      omega
    · simp only [List.filter_cons]
      rw [if_neg (by simpa using hp)]
      split
      · simp; omega
      · exact ih

lemma length_filter_cons_lt (code : String) (path : List String) (hpath : code ∉ path) :
    ∀ l : List String, code ∈ l →
      (l.filter (fun k => decide (k ∉ code :: path))).length <
        (l.filter (fun k => decide (k ∉ path))).length := by
  have hsub : ∀ a : String, (decide (a ∉ code :: path)) = true →
      (decide (a ∉ path)) = true := by
    intro a ha
    simp only [decide_eq_true_eq, List.mem_cons, not_or] at ha ⊢
    exact ha.2
  intro l
  induction l with
  | nil => intro hmem; cases hmem
  | cons hd tl ih =>
    intro hmem
    rcases List.mem_cons.mp hmem with heq | htl
    · subst heq
      simp only [List.filter_cons]
      rw [if_neg (by simp), if_pos (by simpa using hpath)]
      simp only [List.length_cons]
      exact Nat.lt_succ_of_le (length_filter_le_of_imp _ _ tl hsub)
    · simp only [List.filter_cons]
      by_cases hd_new : hd ∈ code :: path
      · rw [if_neg (by simp only [decide_eq_true_eq]; exact not_not_intro hd_new)]
        have hd_old : hd ∈ path ∨ hd = code := by
          rcases List.mem_cons.mp hd_new with h1 | h2
          · exact Or.inr h1
          · exact Or.inl h2
        rcases hd_old with h1 | h2
        · rw [if_neg (by simpa using h1)]
          exact ih htl
        · subst h2
          rw [if_pos (by simpa using hpath)]
          simp only [List.length_cons]
          exact Nat.lt_succ_of_le (length_filter_le_of_imp _ _ tl hsub)
      · have hd_notpath : hd ∉ path := fun hh => hd_new (List.mem_cons_of_mem _ hh)
        rw [if_pos (by simpa using hd_new), if_pos (by simpa using hd_notpath)]
        simpa using ih htl

lemma keysLeft_cons_lt (vm : VariantsMap) (path : List String) (code : String)
    (hmem : code ∈ (vm.map Prod.fst).dedup) (hpath : code ∉ path) :
    keysLeft vm (code :: path) < keysLeft vm path :=
  length_filter_cons_lt code path hpath _ hmem

lemma getKV_some_mem_keys {α : Type} (m : List (String × α)) (k : String) (v : α)
    (h : getKV m k = some v) : k ∈ m.map Prod.fst := by
  induction m with
  | nil => cases h
  | cons hd tl ih =>
    obtain ⟨k₀, v₀⟩ := hd
    simp only [getKV] at h
    by_cases hk : k₀ = k
    · simp [hk]
    · rw [if_neg hk] at h
      exact List.mem_cons_of_mem _ (ih h)

lemma keysLeft_le (vm : VariantsMap) (path : List String) : keysLeft vm path ≤ vm.length := by
  unfold keysLeft
  calc ((vm.map Prod.fst).dedup.filter _).length
      ≤ (vm.map Prod.fst).dedup.length := (List.filter_sublist _).length_le
    _ ≤ (vm.map Prod.fst).length := (List.dedup_sublist _).length_le
    _ = vm.length := List.length_map _ _

lemma resolveF_isSome (vm : VariantsMap) (stock : List String) :
    ∀ (fuel : Nat) (code : String) (memo : Memo) (path : List String),
      keysLeft vm path < fuel → (resolveF vm stock fuel code memo path).isSome := by
  intro fuel
  induction fuel with
  | zero => intro code memo path h; cases Nat.not_lt_zero _ h
  | succ fuel ih =>
    intro code memo path h
    simp only [resolveF]
    cases hm : getKV memo code with
    | some r => rfl
    | none =>
      by_cases hp : code ∈ path
      · simp [hp]
      · simp only [if_neg hp]
        cases hv : getKV vm code with
        | none => rfl
        | some batches =>
          have hrec : ∀ c m, (resolveF vm stock fuel c m (code :: path)).isSome := by
            intro c m
            apply ih
            have hk : keysLeft vm (code :: path) < keysLeft vm path :=
              keysLeft_cons_lt vm path code
                (List.mem_dedup.mpr (getKV_some_mem_keys vm code batches hv)) hp
            omega
          obtain ⟨⟨best, memo₂⟩, hg⟩ := Option.isSome_iff_exists.mp
            (goBatches_isSome _ code stock hrec batches (none, -1, -1) memo)
          simp [hg]

/-! ### Branch equations for the resolver -/

lemma resolveF_memoHit (vm : VariantsMap) (stock : List String) (fuel : Nat)
    (code : String) (memo : Memo) (path : List String) (r : RRes)
    (hm : getKV memo code = some r) :
    resolveF vm stock (fuel + 1) code memo path = some (r, memo) := by
  simp [resolveF, hm]

lemma resolveF_cycle (vm : VariantsMap) (stock : List String) (fuel : Nat)
    (code : String) (memo : Memo) (path : List String)
    (hm : getKV memo code = none) (hp : code ∈ path) :
    resolveF vm stock (fuel + 1) code memo path = some (circRes, memo) := by
  simp [resolveF, hm, hp]

lemma resolveF_leaf (vm : VariantsMap) (stock : List String) (fuel : Nat)
    (code : String) (memo : Memo) (path : List String)
    (hm : getKV memo code = none) (hp : code ∉ path) (hv : getKV vm code = none) :
    resolveF vm stock (fuel + 1) code memo path = some (rawRes stock code, memo) := by
  simp [resolveF, hm, hp, hv]

lemma resolveF_batches (vm : VariantsMap) (stock : List String) (fuel : Nat)
    (code : String) (memo : Memo) (path : List String)
    (bs : List (String × List String)) (best : Option RRes × ℚ × Int) (memo₂ : Memo)
    (hm : getKV memo code = none) (hp : code ∉ path) (hv : getKV vm code = some bs)
    (hg : goBatches (fun c m => resolveF vm stock fuel c m (code :: path))
        code stock bs (none, -1, -1) memo = some (best, memo₂)) :
    resolveF vm stock (fuel + 1) code memo path =
      some (best.1.getD (nvrRes code), setKV memo₂ code (best.1.getD (nvrRes code))) := by
  simp [resolveF, hm, hp, hv, hg]

lemma resolve_eq_of_resolveF (vm : VariantsMap) (stock : List String)
    (code : String) (memo : Memo) (path : List String) (out : RRes × Memo)
    (h : resolveF vm stock (vm.length + 1) code memo path = some out) :
    resolve vm stock code memo path = out := by
  simp [resolve, h]

lemma resolve_memoHit (vm : VariantsMap) (stock : List String)
    (code : String) (memo : Memo) (path : List String) (r : RRes)
    (hm : getKV memo code = some r) :
    resolve vm stock code memo path = (r, memo) :=
  resolve_eq_of_resolveF vm stock code memo path (r, memo)
    (resolveF_memoHit vm stock vm.length code memo path r hm)

lemma resolve_cycle (vm : VariantsMap) (stock : List String)
    (code : String) (memo : Memo) (path : List String)
    (hm : getKV memo code = none) (hp : code ∈ path) :
    resolve vm stock code memo path = (circRes, memo) :=
  resolve_eq_of_resolveF vm stock code memo path (circRes, memo)
    (resolveF_cycle vm stock vm.length code memo path hm hp)

lemma resolve_leaf (vm : VariantsMap) (stock : List String)
    (code : String) (memo : Memo) (path : List String)
    (hm : getKV memo code = none) (hp : code ∉ path) (hv : getKV vm code = none) :
    resolve vm stock code memo path = (rawRes stock code, memo) :=
  resolve_eq_of_resolveF vm stock code memo path (rawRes stock code, memo)
    (resolveF_leaf vm stock vm.length code memo path hm hp hv)

lemma resolve_batches (vm : VariantsMap) (stock : List String)
    (code : String) (memo : Memo) (path : List String)
    (bs : List (String × List String))
    (hm : getKV memo code = none) (hp : code ∉ path) (hv : getKV vm code = some bs) :
    ∃ best memo₂,
      goBatches (fun c m => resolveF vm stock vm.length c m (code :: path))
        code stock bs (none, -1, -1) memo = some (best, memo₂) ∧
      resolve vm stock code memo path =
        (best.1.getD (nvrRes code), setKV memo₂ code (best.1.getD (nvrRes code))) := by
  have hrec : ∀ c m, (resolveF vm stock vm.length c m (code :: path)).isSome := by
    intro c m
    apply resolveF_isSome
    calc keysLeft vm (code :: path)
        < keysLeft vm path :=
          keysLeft_cons_lt vm path code
            (List.mem_dedup.mpr (getKV_some_mem_keys vm code bs hv)) hp
      _ ≤ vm.length := keysLeft_le vm path
  obtain ⟨⟨best, memo₂⟩, hg⟩ := Option.isSome_iff_exists.mp
    (goBatches_isSome _ code stock hrec bs (none, -1, -1) memo)
  exact ⟨best, memo₂, hg,
    resolve_eq_of_resolveF vm stock code memo path _
      (resolveF_batches vm stock vm.length code memo path bs best memo₂ hm hp hv hg)⟩

/-! ### Invariants of the batch loop -/

lemma goBatches_ratio_inv (rec : String → Memo → Option (RRes × Memo))
    (code : String) (stock : List String) :
    ∀ (bs : List (String × List String)) (best : Option RRes × ℚ × Int) (memo : Memo)
      (out : Option RRes × ℚ × Int) (memo₂ : Memo),
      (∀ r, best.1 = some r → r.ratio = ratioOf stock r.exploded) →
      goBatches rec code stock bs best memo = some (out, memo₂) →
      ∀ r, out.1 = some r → r.ratio = ratioOf stock r.exploded := by
  intro bs
  induction bs with
  | nil =>
    intro best memo out memo₂ hinv hg
    simp only [goBatches, Option.some.injEq] at hg
    obtain ⟨h1, _⟩ := Prod.mk.injEq .. ▸ hg
    exact h1 ▸ hinv
  | cons hd rest ih =>
    obtain ⟨batchId, ings⟩ := hd
    intro best memo out memo₂ hinv hg
    simp only [goBatches] at hg
    cases he : expandIngs rec code ings [] [] memo with
    | none => rw [he] at hg; cases hg
    | some val =>
      obtain ⟨ex, ms, memo₃⟩ := val
      rw [he] at hg
      exact ih _ _ _ _ (chooseBatch_ratio_inv stock best batchId ex ms hinv) hg

lemma goBatches_best_isSome (rec : String → Memo → Option (RRes × Memo))
    (code : String) (stock : List String) :
    ∀ (bs : List (String × List String)) (best : Option RRes × ℚ × Int) (memo : Memo)
      (out : Option RRes × ℚ × Int) (memo₂ : Memo),
      (best.1.isSome ∨ (best.2.1 < 0 ∧ bs ≠ [])) →
      goBatches rec code stock bs best memo = some (out, memo₂) →
      out.1.isSome := by
  intro bs
  induction bs with
  | nil =>
    intro best memo out memo₂ hinv hg
    simp only [goBatches, Option.some.injEq] at hg
    obtain ⟨h1, _⟩ := Prod.mk.injEq .. ▸ hg
    rcases hinv with h | h
    · exact h1 ▸ h
    · cases h.2 rfl
  | cons hd rest ih =>
    obtain ⟨batchId, ings⟩ := hd
    intro best memo out memo₂ hinv hg
    simp only [goBatches] at hg
    cases he : expandIngs rec code ings [] [] memo with
    | none => rw [he] at hg; cases hg
    | some val =>
      obtain ⟨ex, ms, memo₃⟩ := val
      rw [he] at hg
      have hnext : (chooseBatch stock best batchId ex ms).1.isSome := by
        rcases hinv with h | h
        · exact chooseBatch_fst_isSome stock best batchId ex ms h
        · rw [chooseBatch_some_of_neg stock best batchId ex ms h.1]
          rfl
      exact ih _ _ _ _ (Or.inl hnext) hg

/-! ### Builder lemmas -/

lemma getKV_map_pair {β : Type} (F : String → β) :
    ∀ (l : List String) (k : String) (v : β),
      getKV (l.map (fun p => (p, F p))) k = some v → k ∈ l ∧ v = F k := by
  intro l
  induction l with
  | nil => intro k v h; cases h
  | cons hd tl ih =>
    intro k v h
    simp only [List.map_cons, getKV] at h
    by_cases hk : hd = k
    · subst hk
      rw [if_pos rfl] at h
      simp only [Option.some.injEq] at h
      exact ⟨List.mem_cons_self _ _, h.symm⟩
    · rw [if_neg hk] at h
      obtain ⟨h1, h2⟩ := ih k v h
      exact ⟨List.mem_cons_of_mem _ h1, h2⟩

lemma buildVariantsFor_mem_ne_nil (rows : List (String × String × String)) (p : String)
    (b : String) (ings : List String) (h : (b, ings) ∈ buildVariantsFor rows p) :
    ings ≠ [] := by
  unfold buildVariantsFor at h
  have := (List.mem_filter.mp h).2
  simp only [decide_eq_true_eq] at this
  exact List.ne_nil_of_length_pos this

lemma buildVariantsFor_ne_nil (rows : List (String × String × String)) (p : String)
    (hp : p ∈ rows.map (fun r => r.2.2)) : buildVariantsFor rows p ≠ [] := by
  obtain ⟨row, hrow, hrp⟩ := List.mem_map.mp hp
  have hgroup : row ∈ rows.filter (fun r => decide (r.2.2 = p)) :=
    List.mem_filter.mpr ⟨hrow, by simp [hrp]⟩
  have hb : row.2.1 ∈
      ((rows.filter (fun r => decide (r.2.2 = p))).map (fun r => r.2.1)).dedup :=
    List.mem_dedup.mpr (List.mem_map.mpr ⟨row, hgroup, rfl⟩)
  apply List.ne_nil_of_mem
    (a := (row.2.1, ((rows.filter (fun r => decide (r.2.2 = p))).filter
      (fun r => decide (r.2.1 = row.2.1))).map (fun r => r.1)))
  unfold buildVariantsFor
  apply List.mem_filter.mpr
  constructor
  · exact List.mem_map.mpr ⟨row.2.1, hb, rfl⟩
  · have hrow2 : row ∈ (rows.filter (fun r => decide (r.2.2 = p))).filter
        (fun r => decide (r.2.1 = row.2.1)) :=
      List.mem_filter.mpr ⟨hgroup, by simp⟩
    simp only [decide_eq_true_eq, List.length_map]
    exact List.length_pos.mpr (List.ne_nil_of_mem hrow2)

/-! ### Claim theorems -/

/-- C3 counterexample: on the graph of end-to-end example 2 (`"P1"` has one batch
`B1 = ["RM1", "RM2"]`, stock `{"RM1"}`), ratio, exploded set and winning batch
match the claim, but the missing provenance maps `"RM2"` to `"P1"` (the merge
loop rewrites the leaf's `"Direct"` sentinel to the current code even at the
top level), not to `"Direct"` as the claim states. -/
theorem C3_counterexample :
    (resolve vmC3 ["RM1"] "P1" [] []).1.ratio = 1/2 ∧
    (resolve vmC3 ["RM1"] "P1" [] []).1.exploded = ["RM1", "RM2"] ∧
    (resolve vmC3 ["RM1"] "P1" [] []).1.batchId = "B1" ∧
    getKV (resolve vmC3 ["RM1"] "P1" [] []).1.missing "RM2" = some "P1" ∧
    ¬ getKV (resolve vmC3 ["RM1"] "P1" [] []).1.missing "RM2" = some "Direct" :=
  of_decide_eq_true (by with_unfolding_all rfl)

/-- C3 (amended): resolving `"P1"` with one batch `B1 = ["RM1", "RM2"]` and
stock `{"RM1"}` returns ratio `1/2`, exploded set `{"RM1", "RM2"}`, winning
batch `"B1"`, and missing provenance `{"RM2": "P1"}`; the result is memoized. -/
theorem C3_example2 :
    resolve vmC3 ["RM1"] "P1" [] [] =
      (⟨["RM1", "RM2"], "B1", 1/2, [("RM2", "P1")]⟩,
       [("P1", ⟨["RM1", "RM2"], "B1", 1/2, [("RM2", "P1")]⟩)]) := by
  with_unfolding_all rfl

/-- C4: for every code absent from the variants map, a top-level resolution
returns exploded set `{code}`, winning batch id `"Raw Material"`, ratio `1` if
the code is in stock else `0`, and missing provenance empty if in stock else
`{code: "Direct"}`. -/
theorem C4_leaf : ∀ (vm : VariantsMap) (stock : List String) (code : String),
    getKV vm code = none →
    (resolve vm stock code [] []).1 =
      ⟨[code], "Raw Material", if code ∈ stock then 1 else 0,
       if code ∈ stock then [] else [(code, "Direct")]⟩ := by
  intro vm stock code hv
  rw [resolve_leaf vm stock code [] [] rfl (by simp) hv]
  by_cases hs : code ∈ stock
  · simp [rawRes, hs]
  · simp [rawRes, hs]

/-- C4 witness: the leaf law evaluated at the empty graph, code `"X"`, empty stock. -/
theorem C4_leaf_witness :
    getKV ([] : VariantsMap) "X" = none ∧
    (resolve [] [] "X" [] []).1 =
      ⟨["X"], "Raw Material", if "X" ∈ ([] : List String) then 1 else 0,
       if "X" ∈ ([] : List String) then [] else [("X", "Direct")]⟩ :=
  ⟨rfl, C4_leaf [] [] "X" rfl⟩

/-- C5 counterexample: resolving the leaf `"X"` with an empty memo leaves the
memo empty although the call did not return the cycle outcome, so the claimed
equivalence (memo contains the result exactly when the call is not a cycle
outcome) is false: the raw-material base case returns without writing the memo. -/
theorem C5_counterexample :
    ¬ ((getKV (resolve [] [] "X" [] []).2 "X" = some (resolve [] [] "X" [] []).1) ↔
       (resolve [] [] "X" [] []).1 ≠ circRes) :=
  of_decide_eq_true (by with_unfolding_all rfl)

/-- C5 (amended): only the recursive (batches) case stores its result in the
memo (the No Valid Recipe fallback included); neither the raw-material leaf case
nor the circular-reference case stores anything: after a call on a code not
already memoized, the memo maps that code to the call's result exactly when the
code has recorded batches and is not on the current path. -/
theorem C5_memo_frame : ∀ (vm : VariantsMap) (stock : List String) (code : String)
    (memo : Memo) (path : List String),
    getKV memo code = none →
    (getKV (resolve vm stock code memo path).2 code =
        some (resolve vm stock code memo path).1 ↔
      (code ∉ path ∧ getKV vm code ≠ none)) := by
  intro vm stock code memo path hm
  by_cases hp : code ∈ path
  · rw [resolve_cycle vm stock code memo path hm hp]
    simp [hm, hp]
  · cases hv : getKV vm code with
    | none =>
      rw [resolve_leaf vm stock code memo path hm hp hv]
      simp [hm, hv]
    | some bs =>
      obtain ⟨best, memo₂, hg, heq⟩ := resolve_batches vm stock code memo path bs hm hp hv
      rw [heq]
      simp only [getKV_setKV_self]
      simp [hp, hv]

/-- C5 witness: the memo-frame law evaluated on a one-batch graph. -/
theorem C5_memo_frame_witness :
    getKV ([] : Memo) "A" = none ∧
    (getKV (resolve vmC5 [] "A" [] []).2 "A" = some (resolve vmC5 [] "A" [] []).1 ↔
      ("A" ∉ ([] : List String) ∧ getKV vmC5 "A" ≠ none)) :=
  ⟨rfl, C5_memo_frame vmC5 [] "A" [] [] rfl⟩

/-- C6: the resolver terminates on every input, cyclic graphs included: the
fuel-indexed embedding always succeeds at the uniform fuel bound
`vm.length + 1`; and a call on a code already on the current path (and not
memoized, the memo being checked first) returns immediately the circular
reference outcome: empty exploded set, the `"Circular Ref"` sentinel, ratio
`0`, and empty missing provenance, with the memo unchanged. -/
theorem C6_cycle_safety :
    (∀ (vm : VariantsMap) (stock : List String) (code : String) (memo : Memo)
        (path : List String), (resolveF vm stock (vm.length + 1) code memo path).isSome) ∧
    (∀ (vm : VariantsMap) (stock : List String) (code : String) (memo : Memo)
        (path : List String),
        getKV memo code = none → code ∈ path →
        resolve vm stock code memo path = (⟨[], "Circular Ref", 0, []⟩, memo)) := by
  constructor
  · intro vm stock code memo path
    exact resolveF_isSome vm stock _ code memo path (Nat.lt_succ_of_le (keysLeft_le vm path))
  · intro vm stock code memo path hm hp
    exact resolve_cycle vm stock code memo path hm hp

/-- C6 witness: cycle behaviour evaluated on the two-node cyclic graph. -/
theorem C6_cycle_safety_witness :
    getKV ([] : Memo) "A" = none ∧ "A" ∈ ["A"] ∧
    resolve vmC6 [] "A" [] ["A"] = (⟨[], "Circular Ref", 0, []⟩, []) :=
  ⟨rfl, by decide, C6_cycle_safety.2 vmC6 [] "A" [] ["A"] rfl (by decide)⟩

/-- C7 counterexample: on the graph where the batch of A uses B and X and the
batch of B uses A (stock `{"X"}`), resolving A first memoizes B with an empty
exploded set (the cyclic branch back to A was suppressed under A's expansion);
a later independent lookup of B with that memo returns this poisoned value,
which differs from resolving B with a fresh empty memo (exploded `{"X"}`). -/
theorem C7_counterexample :
    (resolve vmC7 ["X"] "B" ((resolve vmC7 ["X"] "A" [] []).2) []).1 ≠
      (resolve vmC7 ["X"] "B" [] []).1 :=
  of_decide_eq_true (by with_unfolding_all rfl)

/-- C7 (amended): a call on an already-memoized code returns the cached result
with the memo untouched and no re-traversal, and a call returning the
circular-reference outcome never modifies the memo; full agreement between a
populated memo and a fresh one fails in general (see the counterexample),
because non-cycle results computed beneath a suppressed cycle are memoized. -/
theorem C7_memo_idempotent :
    (∀ (vm : VariantsMap) (stock : List String) (code : String) (memo : Memo)
        (path : List String) (r : RRes),
        getKV memo code = some r → resolve vm stock code memo path = (r, memo)) ∧
    (∀ (vm : VariantsMap) (stock : List String) (code : String) (memo : Memo)
        (path : List String),
        getKV memo code = none → code ∈ path →
        (resolve vm stock code memo path).2 = memo) := by
  constructor
  · exact fun vm stock code memo path r hm => resolve_memoHit vm stock code memo path r hm
  · intro vm stock code memo path hm hp
    rw [resolve_cycle vm stock code memo path hm hp]

/-- C7 witness: the memo-hit law evaluated at a concrete populated memo. -/
theorem C7_memo_idempotent_witness :
    getKV [("Z", nvrRes "Z")] "Z" = some (nvrRes "Z") ∧
    resolve [] [] "Z" [("Z", nvrRes "Z")] [] = (nvrRes "Z", [("Z", nvrRes "Z")]) :=
  ⟨rfl, C7_memo_idempotent.1 [] [] "Z" [("Z", nvrRes "Z")] [] (nvrRes "Z") rfl⟩

/-- C9: the resolver never fails: for every well-formed input the fuel-indexed
embedding returns a result at the uniform fuel bound and `resolve` returns
exactly that result; and the availability division is guarded, the ratio of an
empty exploded set being `0`. -/
theorem C9_no_failure :
    (∀ (vm : VariantsMap) (stock : List String) (code : String) (memo : Memo)
        (path : List String), ∃ out,
        resolveF vm stock (vm.length + 1) code memo path = some out ∧
        resolve vm stock code memo path = out) ∧
    (∀ stock : List String, ratioOf stock [] = 0) := by
  constructor
  · intro vm stock code memo path
    obtain ⟨out, hout⟩ := Option.isSome_iff_exists.mp
      (resolveF_isSome vm stock _ code memo path (Nat.lt_succ_of_le (keysLeft_le vm path)))
    exact ⟨out, hout, resolve_eq_of_resolveF vm stock code memo path out hout⟩
  · intro stock
    rfl

/-- C2: on the chain where Target `"T"` uses Intermediate `"I"` which uses the
out-of-stock raw material `"M"`, the returned missing provenance maps `"M"` to
`"I"` (not to `"T"` and not to `"M"`); and the merge rule rewrites a child's
`"Direct"` sentinel to the current code while keeping any other existing
attribution unchanged, leaving keys absent from the child dict untouched. -/
theorem C2_provenance :
    (getKV (resolve vmC2 [] "T" [] []).1.missing "M" = some "I" ∧
      "I" ≠ "T" ∧ "I" ≠ "M") ∧
    (∀ (code : String) (acc child : List (String × String)) (k v : String),
        (k, v) ∈ child → (child.map Prod.fst).Nodup →
        getKV (mergeMissing code acc child) k =
          some (if v = "Direct" then code else v)) ∧
    (∀ (code : String) (acc child : List (String × String)) (k : String),
        k ∉ child.map Prod.fst →
        getKV (mergeMissing code acc child) k = getKV acc k) := by
  refine ⟨⟨of_decide_eq_true (by with_unfolding_all rfl), by decide, by decide⟩, ?_, ?_⟩
  · intro code acc child k v hmem hnd
    exact mergeMissing_getKV_mem code child acc k v hmem hnd
  · intro code acc child k hk
    exact mergeMissing_getKV_notMem code child acc k hk

/-- C2 witness: the merge rule evaluated on a one-entry child dict carrying the
`"Direct"` sentinel. -/
theorem C2_provenance_witness :
    ("M", "Direct") ∈ [("M", "Direct")] ∧
    (([("M", "Direct")] : List (String × String)).map Prod.fst).Nodup ∧
    getKV (mergeMissing "I" [] [("M", "Direct")]) "M" =
      some (if "Direct" = "Direct" then "I" else "Direct") :=
  ⟨by decide, by decide,
   C2_provenance.2.1 "I" [] [("M", "Direct")] "M" "Direct" (by decide) (by decide)⟩

/-- C10: every variants map produced by the builder maps each parent key to a
non-empty list of batches, each with a non-empty ingredient list; consequently,
whenever a code's batch list is non-empty, the batch loop produces a best result
(`best_result` is not `None` after the loop), so the `"No Valid Recipe"`
fallback branch is unreachable on builder-produced graphs. -/
theorem C10_builder_nonempty :
    (∀ (rows : List (String × String × String)) (p : String)
        (vl : List (String × List String)),
        getKV (buildVariantsMap rows) p = some vl →
        vl ≠ [] ∧ ∀ (b : String) (ings : List String), (b, ings) ∈ vl → ings ≠ []) ∧
    (∀ (vm : VariantsMap) (stock : List String) (code : String) (memo : Memo)
        (path : List String) (bs : List (String × List String)),
        getKV memo code = none → code ∉ path → getKV vm code = some bs → bs ≠ [] →
        ∃ best memo₂ r,
          goBatches (fun c m => resolveF vm stock vm.length c m (code :: path))
            code stock bs (none, -1, -1) memo = some (best, memo₂) ∧
          best.1 = some r ∧
          resolve vm stock code memo path = (r, setKV memo₂ code r)) := by
  constructor
  · intro rows p vl h
    have h' : getKV (((rows.map (fun r => r.2.2)).dedup).map
        (fun q => (q, buildVariantsFor rows q))) p = some vl := h
    obtain ⟨hpmem, hvl⟩ := getKV_map_pair (buildVariantsFor rows) _ p vl h'
    subst hvl
    exact ⟨buildVariantsFor_ne_nil rows p (List.mem_dedup.mp hpmem),
      fun b ings hmem => buildVariantsFor_mem_ne_nil rows p b ings hmem⟩
  · intro vm stock code memo path bs hm hp hv hne
    obtain ⟨best, memo₂, hg, heq⟩ := resolve_batches vm stock code memo path bs hm hp hv
    have hsome : best.1.isSome :=
      goBatches_best_isSome _ code stock bs (none, -1, -1) memo best memo₂
        (Or.inr ⟨by norm_num, hne⟩) hg
    obtain ⟨r, hr⟩ := Option.isSome_iff_exists.mp hsome
    refine ⟨best, memo₂, r, hg, hr, ?_⟩
    rw [heq, hr]
    rfl

/-- C10 witness: the builder evaluated on a single history row. -/
theorem C10_builder_nonempty_witness :
    getKV (buildVariantsMap rowsC10) "P1" = some [("B1", ["RM1"])] ∧
    ([("B1", ["RM1"])] : List (String × List String)) ≠ [] ∧
    (∀ (b : String) (ings : List String),
      (b, ings) ∈ ([("B1", ["RM1"])] : List (String × List String)) → ings ≠ []) :=
  ⟨rfl, (C10_builder_nonempty.1 rowsC10 "P1" [("B1", ["RM1"])] rfl).1,
   (C10_builder_nonempty.1 rowsC10 "P1" [("B1", ["RM1"])] rfl).2⟩

/-- C8 counterexample: on the graph recording parent `"P"` with an empty batch
list and stock `{"P"}`, the resolver takes the `"No Valid Recipe"` fallback,
whose exploded set is the non-empty `{"P"}` but whose ratio is `0`, while the
claimed formula gives `|{"P"} ∩ {"P"}| / |{"P"}| = 1`: the ratio law fails for
the fallback when the code itself is in stock. -/
theorem C8_counterexample :
    (resolve vmC8 ["P"] "P" [] []).1 = nvrRes "P" ∧
    0 < (resolve vmC8 ["P"] "P" [] []).1.exploded.length ∧
    ¬ ((resolve vmC8 ["P"] "P" [] []).1.ratio =
        (((resolve vmC8 ["P"] "P" [] []).1.exploded.filter
            (fun rm => decide (rm ∈ ["P"]))).length : ℚ) /
          ((resolve vmC8 ["P"] "P" [] []).1.exploded.length : ℚ)) :=
  of_decide_eq_true (by with_unfolding_all rfl)

/-- C8 (amended): whenever a code has a non-empty batch list, the returned
ratio equals the number of in-stock exploded materials divided by the exploded
set size (`0` when the exploded set is empty); the `"No Valid Recipe"` fallback
(empty batch list) instead returns ratio `0` with exploded set `{code}`, which
satisfies that formula exactly when the code is not in stock. -/
theorem C8_ratio_law :
    (∀ (vm : VariantsMap) (stock : List String) (code : String) (memo : Memo)
        (path : List String) (bs : List (String × List String)),
        getKV memo code = none → code ∉ path → getKV vm code = some bs → bs ≠ [] →
        (resolve vm stock code memo path).1.ratio =
          (if 0 < (resolve vm stock code memo path).1.exploded.length then
            (((resolve vm stock code memo path).1.exploded.filter
                (fun rm => decide (rm ∈ stock))).length : ℚ) /
              ((resolve vm stock code memo path).1.exploded.length : ℚ)
          else 0)) ∧
    (∀ (vm : VariantsMap) (stock : List String) (code : String) (memo : Memo)
        (path : List String),
        getKV memo code = none → code ∉ path → getKV vm code = some [] →
        (resolve vm stock code memo path).1 = nvrRes code ∧
        ((resolve vm stock code memo path).1.ratio =
            (if 0 < (resolve vm stock code memo path).1.exploded.length then
              (((resolve vm stock code memo path).1.exploded.filter
                  (fun rm => decide (rm ∈ stock))).length : ℚ) /
                ((resolve vm stock code memo path).1.exploded.length : ℚ)
            else 0) ↔ code ∉ stock)) := by
  constructor
  · intro vm stock code memo path bs hm hp hv hne
    obtain ⟨best, memo₂, hg, heq⟩ := resolve_batches vm stock code memo path bs hm hp hv
    have hsome : best.1.isSome :=
      goBatches_best_isSome _ code stock bs (none, -1, -1) memo best memo₂
        (Or.inr ⟨by norm_num, hne⟩) hg
    obtain ⟨r, hr⟩ := Option.isSome_iff_exists.mp hsome
    have hratio : r.ratio = ratioOf stock r.exploded :=
      goBatches_ratio_inv _ code stock bs (none, -1, -1) memo best memo₂
        (fun r' h => nomatch h) hg r hr
    rw [heq, hr]
    simp only [Option.getD_some]
    rw [hratio]
    rfl
  · intro vm stock code memo path hm hp hv
    obtain ⟨best, memo₂, hg, heq⟩ := resolve_batches vm stock code memo path [] hm hp hv
    simp only [goBatches, Option.some.injEq, Prod.mk.injEq] at hg
    obtain ⟨hbest, hmemo⟩ := hg
    have hfst : (resolve vm stock code memo path).1 = nvrRes code := by
      rw [heq, ← hbest]
      rfl
    refine ⟨hfst, ?_⟩
    rw [hfst]
    by_cases hs : code ∈ stock
    · simp [nvrRes, List.filter_cons, hs]
    · simp [nvrRes, List.filter_cons, hs]

/-- C8 witness: the ratio law evaluated on a one-batch, fully-stocked graph. -/
theorem C8_ratio_law_witness :
    getKV ([] : Memo) "Q" = none ∧
    getKV vmC8w "Q" = some [("b1", ["R"])] ∧
    ([("b1", ["R"])] : List (String × List String)) ≠ [] ∧
    (resolve vmC8w ["R"] "Q" [] []).1.ratio =
      (if 0 < (resolve vmC8w ["R"] "Q" [] []).1.exploded.length then
        (((resolve vmC8w ["R"] "Q" [] []).1.exploded.filter
            (fun rm => decide (rm ∈ ["R"]))).length : ℚ) /
          ((resolve vmC8w ["R"] "Q" [] []).1.exploded.length : ℚ)
      else 0) :=
  ⟨rfl, rfl, by decide,
   C8_ratio_law.1 vmC8w ["R"] "Q" [] [] [("b1", ["R"])] rfl (by decide) rfl (by decide)⟩

/-- C1: the running best is updated per batch, and a batch replaces the current
best exactly when its ratio strictly beats the best score, or equals it and its
exploded-set size strictly beats the best size; in particular, for a parent
with exactly two batches whose per-batch expansions have equal ratio but
different exploded-set sizes, the resolver returns the batch with the larger
exploded set. -/
theorem C1_tiebreak :
    (∀ (stock : List String) (best : Option RRes × ℚ × Int) (batchId : String)
        (ex : List String) (ms : List (String × String)),
        ((ratioOf stock ex > best.2.1 ∨
            (ratioOf stock ex = best.2.1 ∧ (ex.length : Int) > best.2.2)) →
          chooseBatch stock best batchId ex ms =
            (some ⟨ex, batchId, ratioOf stock ex, ms⟩, ratioOf stock ex,
             (ex.length : Int))) ∧
        (¬(ratioOf stock ex > best.2.1 ∨
            (ratioOf stock ex = best.2.1 ∧ (ex.length : Int) > best.2.2)) →
          chooseBatch stock best batchId ex ms = best)) ∧
    (∀ (vm : VariantsMap) (stock : List String) (code : String) (memo : Memo)
        (path : List String) (b1 b2 : String) (i1 i2 e1 e2 : List String)
        (ms1 ms2 : List (String × String)) (m1 m2 : Memo),
        getKV memo code = none → code ∉ path →
        getKV vm code = some [(b1, i1), (b2, i2)] →
        expandIngs (fun c m => resolveF vm stock vm.length c m (code :: path))
          code i1 [] [] memo = some (e1, ms1, m1) →
        expandIngs (fun c m => resolveF vm stock vm.length c m (code :: path))
          code i2 [] [] m1 = some (e2, ms2, m2) →
        ratioOf stock e1 = ratioOf stock e2 →
        (e1.length < e2.length →
          (resolve vm stock code memo path).1 = ⟨e2, b2, ratioOf stock e2, ms2⟩) ∧
        (e2.length < e1.length →
          (resolve vm stock code memo path).1 = ⟨e1, b1, ratioOf stock e1, ms1⟩)) := by
  constructor
  · intro stock best batchId ex ms
    exact ⟨chooseBatch_better stock best batchId ex ms,
           chooseBatch_not_better stock best batchId ex ms⟩
  · intro vm stock code memo path b1 b2 i1 i2 e1 e2 ms1 ms2 m1 m2 hm hp hv he1 he2 hr
    obtain ⟨best, memo₂, hg, heq⟩ := resolve_batches vm stock code memo path _ hm hp hv
    have hst1 : chooseBatch stock (none, -1, -1) b1 e1 ms1 =
        (some ⟨e1, b1, ratioOf stock e1, ms1⟩, ratioOf stock e1, (e1.length : Int)) :=
      chooseBatch_some_of_neg stock (none, -1, -1) b1 e1 ms1 (by norm_num)
    have hstep : goBatches (fun c m => resolveF vm stock vm.length c m (code :: path))
        code stock [(b1, i1), (b2, i2)] (none, -1, -1) memo =
        some (chooseBatch stock (chooseBatch stock (none, -1, -1) b1 e1 ms1) b2 e2 ms2,
              m2) := by
      simp only [goBatches, he1, he2]
    rw [hstep] at hg
    simp only [Option.some.injEq, Prod.mk.injEq] at hg
    constructor
    · intro hlt
      have hst2 : chooseBatch stock (chooseBatch stock (none, -1, -1) b1 e1 ms1)
          b2 e2 ms2 =
          (some ⟨e2, b2, ratioOf stock e2, ms2⟩, ratioOf stock e2, (e2.length : Int)) := by
        rw [hst1]
        exact chooseBatch_better stock _ b2 e2 ms2
          (Or.inr ⟨hr.symm, by show ((e2.length : Int)) > ((e1.length : Int))
                               exact_mod_cast hlt⟩)
      rw [heq, ← hg.1, hst2]
      rfl
    · intro hlt
      have hnb : ¬(ratioOf stock e2 > ratioOf stock e1 ∨
          (ratioOf stock e2 = ratioOf stock e1 ∧ (e2.length : Int) > (e1.length : Int))) := by
        intro hcon
        rcases hcon with hgt | ⟨_, hlen⟩
        · rw [hr] at hgt
          exact lt_irrefl _ hgt
        · have h21 : (e2.length : Int) < (e1.length : Int) := by exact_mod_cast hlt
          omega
      have hst2 : chooseBatch stock (chooseBatch stock (none, -1, -1) b1 e1 ms1)
          b2 e2 ms2 =
          (some ⟨e1, b1, ratioOf stock e1, ms1⟩, ratioOf stock e1, (e1.length : Int)) := by
        rw [hst1]
        exact chooseBatch_not_better stock _ b2 e2 ms2 hnb
      rw [heq, ← hg.1, hst2]
      rfl

/-- C1 witness: the tie-break evaluated on a parent with batches `B1 = ["X"]`
and `B2 = ["X", "Y"]` and empty stock, where both ratios are `0` and the larger
batch `B2` wins. -/
theorem C1_tiebreak_witness :
    ratioOf [] ["X"] = ratioOf [] ["X", "Y"] ∧
    (["X"] : List String).length < (["X", "Y"] : List String).length ∧
    (resolve vmC1 [] "P" [] []).1 =
      ⟨["X", "Y"], "B2", ratioOf [] ["X", "Y"], [("X", "P"), ("Y", "P")]⟩ := by
  refine ⟨by with_unfolding_all rfl, by decide, ?_⟩
  exact (C1_tiebreak.2 vmC1 [] "P" [] [] "B1" "B2" ["X"] ["X", "Y"] ["X"] ["X", "Y"]
    [("X", "P")] [("X", "P"), ("Y", "P")] [] [] rfl (by decide) rfl
    (by with_unfolding_all rfl) (by with_unfolding_all rfl)
    (by with_unfolding_all rfl)).1 (by decide)
